import Mathlib

/-!
Verification of the numeric-evaluation core of `mathics/builtin/numeric.py`
(numericization `N`, `Precision`, `Round`, `Chop`, `NumericQ`, `IntegerDigits`,
`Hash`) against its natural-language specification.

The expression data model and the builtin bodies are shallowly embedded below.
External collaborators (the rewriting engine `evaluation.evaluate`, the
definitions store `evaluation.definitions`, the hashlib/zlib digest functions)
are modelled as explicit parameters, mirroring the narrow accessor contracts
the source uses.  Machine floats and sympy floats are modelled by exact
rationals carrying an exactness tag; where a claim depends on binary rounding
of a float this is noted at the definition.
-/

namespace Mathics

/-- Shallow embedding of `mathics.core.expression` values: the atoms
`Integer`, `Rational`, `MachineReal`, `PrecisionReal`, `Complex`, `Symbol`,
`String`, and compound `Expression` nodes (a head plus a list of leaves).
`machineReal` carries the exact rational value the machine float denotes;
`precisionReal` carries its value and its decimal-digit precision. -/
inductive Expr where
  | symbol : String → Expr
  | str : String → Expr
  | integer : ℤ → Expr
  | rational : ℚ → Expr
  | machineReal : ℚ → Expr
  | precisionReal : ℚ → ℚ → Expr
  | complex : Expr → Expr → Expr
  | expr : Expr → List Expr → Expr

mutual

/-- Structural sameness of expressions (`BaseExpression.same` in the source). -/
def Expr.beq : Expr → Expr → Bool
  | .symbol s, .symbol t => s = t
  | .str s, .str t => s = t
  | .integer m, .integer n => m = n
  | .rational p, .rational q => p = q
  | .machineReal v, .machineReal w => v = w
  | .precisionReal v p, .precisionReal w q => v = w && p = q
  | .complex a b, .complex c d => Expr.beq a c && Expr.beq b d
  | .expr h l, .expr h' l' => Expr.beq h h' && Expr.beqList l l'
  | _, _ => false

/-- Pointwise structural sameness of leaf lists. -/
def Expr.beqList : List Expr → List Expr → Bool
  | [], [] => true
  | x :: xs, y :: ys => Expr.beq x y && Expr.beqList xs ys
  | _, _ => false

end

mutual

theorem Expr.beq_eq : ∀ a b : Expr, Expr.beq a b = true → a = b
  | .symbol s, .symbol t, h => by
    simp only [Expr.beq, decide_eq_true_eq] at h; rw [h]
  | .str s, .str t, h => by
    simp only [Expr.beq, decide_eq_true_eq] at h; rw [h]
  | .integer m, .integer n, h => by
    simp only [Expr.beq, decide_eq_true_eq] at h; rw [h]
  | .rational p, .rational q, h => by
    simp only [Expr.beq, decide_eq_true_eq] at h; rw [h]
  | .machineReal v, .machineReal w, h => by
    simp only [Expr.beq, decide_eq_true_eq] at h; rw [h]
  | .precisionReal v p, .precisionReal w q, h => by
    simp only [Expr.beq, Bool.and_eq_true, decide_eq_true_eq] at h
    rw [h.1, h.2]
  | .complex a b, .complex c d, h => by
    simp only [Expr.beq, Bool.and_eq_true] at h
    rw [Expr.beq_eq a c h.1, Expr.beq_eq b d h.2]
  | .expr h l, .expr h' l', hyp => by
    simp only [Expr.beq, Bool.and_eq_true] at hyp
    rw [Expr.beq_eq h h' hyp.1, Expr.beqList_eq l l' hyp.2]

theorem Expr.beqList_eq : ∀ as bs : List Expr, Expr.beqList as bs = true → as = bs
  | [], [], _ => rfl
  | x :: xs, y :: ys, h => by
    simp only [Expr.beqList, Bool.and_eq_true] at h
    rw [Expr.beq_eq x y h.1, Expr.beqList_eq xs ys h.2]

end

mutual

theorem Expr.beq_refl : ∀ a : Expr, Expr.beq a a = true
  | .symbol s => by simp [Expr.beq]
  | .str s => by simp [Expr.beq]
  | .integer m => by simp [Expr.beq]
  | .rational p => by simp [Expr.beq]
  | .machineReal v => by simp [Expr.beq]
  | .precisionReal v p => by simp [Expr.beq]
  | .complex a b => by simp [Expr.beq, Expr.beq_refl a, Expr.beq_refl b]
  | .expr h l => by simp [Expr.beq, Expr.beq_refl h, Expr.beqList_refl l]

theorem Expr.beqList_refl : ∀ as : List Expr, Expr.beqList as as = true
  | [] => rfl
  | x :: xs => by simp [Expr.beqList, Expr.beq_refl x, Expr.beqList_refl xs]

end

instance : DecidableEq Expr := fun a b =>
  if h : Expr.beq a b = true then .isTrue (Expr.beq_eq a b h)
  else .isFalse (fun he => h (he ▸ Expr.beq_refl a))

/-- `get_name`: the name of a symbol, `""` for anything else. -/
def Expr.getName : Expr → String
  | .symbol s => s
  | _ => ""

/-- `get_head_name`: the name of the head symbol of an expression; atoms
report their built-in head names. -/
def Expr.headName : Expr → String
  | .symbol _ => "System`Symbol"
  | .str _ => "System`String"
  | .integer _ => "System`Integer"
  | .rational _ => "System`Rational"
  | .machineReal _ => "System`Real"
  | .precisionReal _ _ => "System`Real"
  | .complex _ _ => "System`Complex"
  | .expr h _ => h.getName

/-- `get_lookup_name`: the symbol name definitions are looked up under — a
symbol's own name, the (recursive) lookup name of the head of a compound
expression, and `""` for other atoms. -/
def Expr.lookupName : Expr → String
  | .symbol s => s
  | .expr h _ => h.lookupName
  | _ => ""

/-- `is_atom`: everything except a compound `Expression`. -/
def Expr.isAtom : Expr → Bool
  | .expr _ _ => false
  | _ => true

/-- `isinstance(expr, MachineReal)`. -/
def Expr.isMachineReal : Expr → Bool
  | .machineReal _ => true
  | _ => false

/-- `isinstance(expr, Number)`: integers, rationals, reals and complexes. -/
def Expr.isNumber : Expr → Bool
  | .integer _ => true
  | .rational _ => true
  | .machineReal _ => true
  | .precisionReal _ _ => true
  | .complex _ _ => true
  | _ => false

/-- The external collaborators `N.apply_other` interacts with, as the narrow
accessor contracts of the surrounding system: `evalo` is the rewriting
engine's `expr.evaluate(evaluation)` (`none` models a call that never
returns); `attrs` is `definitions.get_attributes`; `nvalues` is
`definitions.get_value(name, 'System`NValues', nexpr, evaluation)`;
`resolveFloat` is `get_float_value(n_evaluation=...)` on non-number
precision arguments (number arguments are resolved directly, see
`getFloatValue`). -/
structure Env where
  evalo : Expr → Option Expr
  attrs : String → List String
  nvalues : String → Expr → Option Expr
  resolveFloat : Expr → Option ℚ

/-- `prec.get_float_value(n_evaluation=evaluation)`: numbers yield their
value (a complex yields none), other expressions are resolved through the
environment. -/
def getFloatValue (env : Env) : Expr → Option ℚ
  | .integer n => some n
  | .rational q => some q
  | .machineReal v => some v
  | .precisionReal v _ => some v
  | .complex _ _ => none
  | e => env.resolveFloat e

/-- The precision-argument resolution at the top of `N.apply_other`:
`MachinePrecision` yields `some none` (`d = None`), a float-resolvable
argument yields `some (some d)`, anything else yields `none` (the `precbd`
message case). -/
def resolveD (env : Env) (precArg : Expr) : Option (Option ℚ) :=
  if precArg.getName = "System`MachinePrecision" then some none
  else match getFloatValue env precArg with
       | some d => some (some d)
       | none => none

/-- Modelled from the spec: `Number.round(d)` of `mathics.core.expression`
(not under `src/`) — "produce a new Numeric Value with precision re-targeted
to `requestedPrecision`"; `d = none` (machine precision) yields a machine
real, an explicit digit count yields an arbitrary-precision real, a machine
real keeps what it stores (the requested precision cannot exceed it), and a
complex value is rounded component-wise. -/
def numberRound (d : Option ℚ) : Expr → Expr
  | .integer n =>
    match d with
    | none => .machineReal n
    | some dd => .precisionReal n dd
  | .rational q =>
    match d with
    | none => .machineReal q
    | some dd => .precisionReal q dd
  | .machineReal v => .machineReal v
  | .precisionReal v _ =>
    match d with
    | none => .machineReal v
    | some dd => .precisionReal v dd
  | .complex re im => .complex (numberRound d re) (numberRound d im)
  | e => e

/-- The canonical numeric-conversion request `Expression('N', x, prec)`. -/
def nreq (x precArg : Expr) : Expr :=
  .expr (.symbol "System`N") [x, precArg]

/-- Outcome of one `N.apply_other` call: a returned expression, the reported
`precbd` message (the builtin returns no result, so the original call is
left unevaluated), or divergence of a nested external `evaluate` call. -/
inductive NRes where
  | ok : Expr → NRes
  | precbd : NRes
  | diverge : NRes
  deriving DecidableEq

/-- The `eval_range` selection of `N.apply_other`: which argument positions
are numericized, as a function of the head's attributes and the number of
leaves. -/
def evalRangeFor (attributes : List String) (numLeaves : ℕ) : List ℕ :=
  if "System`NHoldAll" ∈ attributes then []
  else if "System`NHoldFirst" ∈ attributes then List.range' 1 (numLeaves - 1)
  else if "System`NHoldRest" ∈ attributes then
    if 0 < numLeaves then [0] else []
  else List.range numLeaves

/-- `expr.head.get_attributes(evaluation.definitions)`: attributes of a
symbol head; a non-symbol head has none. -/
def headAttributes (env : Env) : Expr → List String
  | .symbol s => env.attrs s
  | _ => []

/-- The leaf loop of `N.apply_other`: `leaves[index] =
Expression('N', leaves[index], prec).evaluate(evaluation)` for each `index`
in `eval_range`, other leaves left untouched; `i` is the index of the first
element of the remaining list.  `none` when some external evaluation
diverges. -/
def convLeaves (env : Env) (precArg : Expr) (evalRange : List ℕ) :
    ℕ → List Expr → Option (List Expr)
  | _, [] => some []
  | i, l :: ls =>
    match (if i ∈ evalRange then env.evalo (nreq l precArg) else some l),
        convLeaves env precArg evalRange (i + 1) ls with
    | some l', some ls' => some (l' :: ls')
    | _, _ => none

mutual

/-- Shallow embedding of `N.apply_other` (`src/mathics/builtin/numeric.py`
lines 133-184): resolve the precision argument (reporting `precbd` on
failure), thread over `List`/`Rule` heads, return machine reals unchanged,
round other numbers, consult the `NValues` override table, return other
atoms unchanged, and otherwise numericize the head and the attribute-selected
argument positions of a compound expression. -/
def applyOther (env : Env) (precArg : Expr) (e : Expr) : NRes :=
  match resolveD env precArg with
  | none => .precbd
  | some d =>
    if e.headName = "System`List" ∨ e.headName = "System`Rule" then
      match e with
      | .expr h leaves =>
        match applyOtherList env precArg leaves with
        | some es => .ok (.expr h es)
        | none => .diverge
      | a => .ok a
    else if e.isMachineReal then .ok e
    else if e.isNumber then .ok (numberRound d e)
    else
      match (if e.lookupName = "" then none
             else env.nvalues e.lookupName (nreq e precArg)) with
      | some result =>
        if result = nreq e precArg then .ok result
        else
          match env.evalo (nreq result precArg) with
          | some r => .ok r
          | none => .diverge
      | none =>
        if e.isAtom then .ok e
        else
          match e with
          | .expr h leaves =>
            match env.evalo (nreq h precArg),
                convLeaves env precArg
                  (evalRangeFor (headAttributes env h) leaves.length) 0 leaves with
            | some hd, some ls => .ok (.expr hd ls)
            | _, _ => .diverge
          | a => .ok a

/-- The recursive `self.apply_other(leaf, prec, evaluation)` threading over
the leaves of a `List`/`Rule` head.  The recursive calls re-check the same
precision argument, so the `precbd` case cannot recur here; any non-`ok`
leaf outcome is a diverging nested evaluation. -/
def applyOtherList (env : Env) (precArg : Expr) : List Expr → Option (List Expr)
  | [] => some []
  | l :: ls =>
    match applyOther env precArg l, applyOtherList env precArg ls with
    | .ok e, some es => some (e :: es)
    | _, _ => none

end

/-- A concrete definitions store for a closed world: per-symbol attributes
and `NValues` override rules, with no rewrite rules other than the `N`
builtin itself. -/
structure CDefs where
  attrs : String → List String
  nvalues : String → Expr → Option Expr

/-- The environment a closed world presents to `applyOther`: the given
definitions store, a given external evaluator, and no symbolic precision
resolution. -/
def closedEnv (dfs : CDefs) (ev : Expr → Option Expr) : Env :=
  ⟨ev, dfs.attrs, dfs.nvalues, fun _ => none⟩

/-- The rewriting engine of a closed world in which the only rule is the `N`
builtin: `evaluate` applies `N.apply_other` to `N[x, prec]` calls and then
re-evaluates the result until it reaches a fixed point; every other
expression is already in normal form.  `fuel` bounds the rule-application
depth; exhaustion (`none`) models an evaluation that never returns. -/
def nEval (dfs : CDefs) : ℕ → Expr → Option Expr
  | 0, _ => none
  | fuel + 1, e =>
    match e with
    | .expr (.symbol "System`N") [x, pr] =>
      match applyOther (closedEnv dfs (nEval dfs fuel)) pr x with
      | .ok r => if r = e then some r else nEval dfs fuel r
      | _ => none
    | e' => some e'

/-- One numericization request in the closed world: the result of
`N.apply_other` on `expr` at precision `p`, `none` when the call reports a
message or a nested evaluation diverges. -/
def numericizeClosed (dfs : CDefs) (fuel : ℕ) (p e : Expr) : Option Expr :=
  match applyOther (closedEnv dfs (nEval dfs fuel)) p e with
  | .ok r => some r
  | _ => none

/-- `Precision`'s `MachineNumberQ` guard rule: modelled from the spec (the
`MachineNumberQ` builtin is not under `src/`) — a value stored at the fixed
machine width: a machine real, or a complex with machine-real components
(the source's doctests pin `Precision[0.0]` and `Precision[0.4 + 2.4 I]` to
`MachinePrecision`). -/
def machineNumberQ : Expr → Bool
  | .machineReal _ => true
  | .complex re im => re.isMachineReal && im.isMachineReal
  | _ => false

/-- `z.is_inexact()`: the value involves a floating representation. -/
def isInexact : Expr → Bool
  | .machineReal _ => true
  | .precisionReal _ _ => true
  | .complex re im => isInexact re || isInexact im
  | _ => false

/-- `z.to_sympy().is_zero` for numeric values: the exact value is zero (a
complex is zero when both components are). -/
def isZeroValue : Expr → Bool
  | .integer n => n = 0
  | .rational q => q = 0
  | .machineReal v => v = 0
  | .precisionReal v _ => v = 0
  | .complex re im => isZeroValue re && isZeroValue im
  | _ => false

/-- `dps(z.get_precision())` for an inexact value: its decimal-digit
precision.  `precisionReal` stores digits directly; the machine sentinel
digit count and the complex rule (take the inexact component) are modelled
from the spec (`get_precision`/`dps` are not under `src/`). -/
def precDigits : Expr → ℚ
  | .precisionReal _ d => d
  | .machineReal _ => 18
  | .complex re im => if isInexact re then precDigits re else precDigits im
  | _ => 0

/-- Shallow embedding of the `Precision` builtin (rules plus
`Precision.apply`, `src/mathics/builtin/numeric.py` lines 243-255): the
`z_?MachineNumberQ` rule fires first and yields the `MachinePrecision`
sentinel; otherwise an exact value yields `Infinity`, an inexact zero
yields `Real(0)` (the *Zero* precision result), and any other inexact value
yields its digit count as a real. -/
def precisionBuiltin (z : Expr) : Expr :=
  if machineNumberQ z then .symbol "System`MachinePrecision"
  else if ¬ isInexact z then .symbol "System`Infinity"
  else if isZeroValue z then .machineReal 0
  else .machineReal (precDigits z)

/-- A sympy numeric value as consumed by the module-level `round` helper:
an exact `Integer`, an exact `Rational`, or an inexact `Float` (its exact
rational value tagged inexact). -/
inductive SVal where
  | sInt : ℤ → SVal
  | sRat : ℚ → SVal
  | sFloat : ℚ → SVal
  deriving DecidableEq

/-- The rational value of a sympy number. -/
def SVal.val : SVal → ℚ
  | .sInt n => n
  | .sRat q => q
  | .sFloat q => q

/-- Exactness of a sympy number: floats are inexact, integers and rationals
exact. -/
def SVal.isExact : SVal → Bool
  | .sFloat _ => false
  | _ => true

/-- The rounding rule of the `round` helper: `sympy.Integer(n + 0.5)` for
`n >= 0` and `sympy.Integer(n - 0.5)` for `n < 0`; `sympy.Integer`
truncates toward zero, so this is round-half-away-from-zero. -/
def roundHalfAway (q : ℚ) : ℤ :=
  if 0 ≤ q then ⌊q + 1 / 2⌋ else ⌈q - 1 / 2⌉

/-- The sympy product `n * k` of an exact `sympy.Integer` with a number:
zero times anything is the exact zero (the source pins this with its
`Round[0.04, 0.1]` doctest, which yields exact `0`), an exact `k` gives an
exact product (a rational collapsing to an integer when its denominator is
1, as sympy normalizes), and a float `k` gives a float. -/
def sMulIntK (n : ℤ) (k : SVal) : SVal :=
  if n = 0 then .sInt 0
  else match k with
    | .sInt m => .sInt (n * m)
    | .sRat q => if ((n : ℚ) * q).den = 1 then .sInt ((n : ℚ) * q).num else .sRat ((n : ℚ) * q)
    | .sFloat q => .sFloat ((n : ℚ) * q)

/-- Shallow embedding of the module-level `round(value, k)` helper
(`src/mathics/builtin/numeric.py` lines 258-264) on real sympy values:
`n = round(value / k)` rounded half-away-from-zero, result `n * k`.  The
source computes the quotient through `1. * value / k`, a float; the quotient
is modelled as exact rational division, which agrees except on ties created
by the binary representation of the half-step threshold (the spec's accepted
boundary limitation). -/
def roundMultiple (x k : SVal) : SVal :=
  sMulIntK (roundHalfAway (x.val / k.val)) k

/-- The default `Chop` tolerance `10.0 ** (-10.0)`, as an exact rational
(written in normal form so it evaluates inside the kernel). -/
def chopDelta : ℚ := Rat.mk' 1 (10 ^ 10) (by norm_num) (Nat.coprime_one_left _)

/-- The default tolerance is `10 ^ (-10)`. -/
theorem chopDelta_eq : chopDelta = 1 / 10 ^ 10 := by
  rw [chopDelta, Rat.mk'_eq_divInt, Rat.divInt_eq_div]; norm_num

/-- `isinstance(expr, Real)`: machine or arbitrary-precision real. -/
def Expr.isReal : Expr → Bool
  | .machineReal _ => true
  | .precisionReal _ _ => true
  | _ => false

/-- `part.to_python()` for the numeric components a `Complex` stores. -/
def partVal : Expr → ℚ
  | .integer n => n
  | .rational q => q
  | .machineReal v => v
  | .precisionReal v _ => v
  | _ => 0

mutual

/-- Shallow embedding of the module-level `chop(expr, delta)` helper
(`src/mathics/builtin/numeric.py` lines 326-340): a real strictly inside
`(-delta, delta)` becomes the exact integer 0, a complex has each component
tested independently, and a compound expression is rebuilt from
`chop(expr.head)` and `chop(leaf)` — recursive calls that pass NO tolerance
argument, so the head and the leaves are chopped at the DEFAULT tolerance
`chopDelta`, not at `delta` (this is exactly what the source does). -/
def chop (e : Expr) (delta : ℚ) : Expr :=
  match e with
  | .machineReal v => if -delta < v ∧ v < delta then .integer 0 else .machineReal v
  | .precisionReal v p => if -delta < v ∧ v < delta then .integer 0 else .precisionReal v p
  | .complex re im =>
    .complex (if -delta < partVal re ∧ partVal re < delta then .integer 0 else re)
      (if -delta < partVal im ∧ partVal im < delta then .integer 0 else im)
  | .expr h leaves => .expr (chop h chopDelta) (chopList leaves)
  | e' => e'

/-- The leaves of a compound expression, chopped the way the source does it:
at the default tolerance. -/
def chopList : List Expr → List Expr
  | [] => []
  | l :: ls => chop l chopDelta :: chopList ls

end

mutual

/-- The recursive chop described by the specification, for comparison with
the source's `chop`: identical leaf behaviour, but a compound expression is
rebuilt "chopping the head and every argument recursively" at the SAME
tolerance `delta`. -/
def chopSpec (e : Expr) (delta : ℚ) : Expr :=
  match e with
  | .machineReal v => if -delta < v ∧ v < delta then .integer 0 else .machineReal v
  | .precisionReal v p => if -delta < v ∧ v < delta then .integer 0 else .precisionReal v p
  | .complex re im =>
    .complex (if -delta < partVal re ∧ partVal re < delta then .integer 0 else re)
      (if -delta < partVal im ∧ partVal im < delta then .integer 0 else im)
  | .expr h leaves => .expr (chopSpec h delta) (chopSpecList leaves delta)
  | e' => e'

/-- Leaves chopped recursively at the same tolerance, per the spec. -/
def chopSpecList : List Expr → ℚ → List Expr
  | [], _ => []
  | l :: ls, delta => chopSpec l delta :: chopSpecList ls delta

end

mutual

/-- Shallow embedding of the `test` closure of `NumericQ.apply`
(`src/mathics/builtin/numeric.py` lines 395-407): a compound expression is
numeric iff its head's name carries the `NumericFunction` attribute and
every leaf is recursively numeric; an atom is tested by `expr.is_numeric()`
— numbers are numeric, strings are not, and a symbol is numeric iff the
surrounding system classifies it so (`numericSym`; `Symbol.is_numeric` of
`mathics.core.expression` is not under `src/`, modelled from the spec:
"any other atom (symbol without that classification, string, etc.) is not
numeric"). -/
def isNumericExpr (attrs : String → List String) (numericSym : String → Bool) :
    Expr → Bool
  | .expr h leaves =>
    ("System`NumericFunction" ∈ attrs h.getName) && isNumericList attrs numericSym leaves
  | .symbol s => numericSym s
  | .str _ => false
  | _ => true

/-- `all(test(leaf) for leaf in expr.leaves)`. -/
def isNumericList (attrs : String → List String) (numericSym : String → Bool) :
    List Expr → Bool
  | [] => true
  | l :: ls => isNumericExpr attrs numericSym l && isNumericList attrs numericSym ls

end

/-- The keys of `Hash._supported_hashes`
(`src/mathics/builtin/numeric.py` lines 568-577). -/
def supportedHashNames : List String :=
  ["Adler32", "CRC32", "MD5", "SHA", "SHA224", "SHA256", "SHA384", "SHA512"]

/-- Shallow embedding of `Hash.compute` (`src/mathics/builtin/numeric.py`
lines 579-586): look the algorithm name up in the registry — an unknown
name returns no result (so the original expression is left unevaluated);
a known name feeds the expression's canonical byte stream `userHash` to the
algorithm (`impl` abstracts the external hashlib/zlib digest functions) and
yields the digest as a non-negative integer. -/
def hashCompute (impl : String → List ℕ → ℕ) (userHash : List ℕ)
    (hashtype : String) : Option ℕ :=
  if hashtype ∈ supportedHashNames then some (impl hashtype userHash) else none

/-- Modelled from the spec: `convert_int_to_digit_list` of
`mathics.core.numbers` (not under `src/`) — the base-`b` digits of `|n|`,
most significant first (the sign of `n` is discarded; the source's
doctest pins `IntegerDigits[0] = {0}`). -/
def convert_int_to_digit_list (n : ℤ) (base : ℕ) : List ℕ :=
  if n = 0 then [0] else (Nat.digits base n.natAbs).reverse

/-- Shallow embedding of `IntegerDigits.apply` / `IntegerDigits.apply_len`
(`src/mathics/builtin/numeric.py` lines 483-517) for integer arguments:
a base not greater than 1 reports `ibase` and returns no result; a
requested length of 0 returns the empty list; otherwise the digit list is
truncated keeping the digits on the right (`digits[-nr_elements:]`) or
padded with zeroes on the left to the requested length. -/
def integerDigits (n base : ℤ) (nrElements : Option ℕ) : Option (List ℕ) :=
  if ¬ 1 < base then none
  else if nrElements = some 0 then some []
  else
    let digits := convert_int_to_digit_list n base.toNat
    match nrElements with
    | none => some digits
    | some len =>
      some (if len ≤ digits.length then digits.drop (digits.length - len)
            else List.replicate (len - digits.length) 0 ++ digits)

/-- An environment with the identity rewriting engine and empty definitions,
used to instantiate universally quantified theorems. -/
def trivEnv : Env := ⟨fun x => some x, fun _ => [], fun _ _ => none, fun _ => none⟩

/-- Unfolding `N.apply_other` on the `NValues` override path: when the
precision resolves, the head is not `List`/`Rule`, the expression is not a
raw number, and the lookup name resolves to an override result, the call
returns the result itself when it is syntactically identical to the request,
and otherwise returns the re-evaluation of `N[result, prec]`. -/
theorem applyOther_override (env : Env) (precArg e result : Expr) (d : Option ℚ)
    (hd : resolveD env precArg = some d)
    (hL : e.headName ≠ "System`List") (hR : e.headName ≠ "System`Rule")
    (hmr : e.isMachineReal = false) (hnum : e.isNumber = false)
    (hnm : e.lookupName ≠ "")
    (hnv : env.nvalues e.lookupName (nreq e precArg) = some result) :
    applyOther env precArg e =
      if result = nreq e precArg then .ok result
      else
        match env.evalo (nreq result precArg) with
        | some r => .ok r
        | none => .diverge := by
  cases e with
  | machineReal v => simp [Expr.isMachineReal] at hmr
  | integer n => simp [Expr.isNumber] at hnum
  | rational q => simp [Expr.isNumber] at hnum
  | precisionReal v p => simp [Expr.isNumber] at hnum
  | complex a b => simp [Expr.isNumber] at hnum
  | str s => simp [Expr.lookupName] at hnm
  | symbol s =>
    simp only [applyOther, hd, Expr.headName, Expr.isMachineReal, Expr.isNumber,
      Expr.lookupName] at *
    rw [if_neg (by simp), if_neg (by simp), if_neg (by simp), if_neg hnm, hnv]
  | expr h leaves =>
    simp only [applyOther, hd, Expr.isMachineReal, Expr.isNumber] at *
    rw [if_neg (by simp [hL, hR]), if_neg (by simp), if_neg (by simp),
      if_neg hnm, hnv]

/-- Unfolding `N.apply_other` on the compound branch: with a resolvable
precision, a head other than `List`/`Rule` and no applicable `NValues`
override, the result is rebuilt from the separately numericized head and
the `eval_range`-selected leaves. -/
theorem applyOther_compound (env : Env) (precArg : Expr) (h : Expr)
    (leaves : List Expr) (d : Option ℚ)
    (hd : resolveD env precArg = some d)
    (hL : h.getName ≠ "System`List") (hR : h.getName ≠ "System`Rule")
    (hnv : (Expr.expr h leaves).lookupName = "" ∨
        env.nvalues (Expr.expr h leaves).lookupName
          (nreq (.expr h leaves) precArg) = none) :
    applyOther env precArg (.expr h leaves) =
      match env.evalo (nreq h precArg),
          convLeaves env precArg
            (evalRangeFor (headAttributes env h) leaves.length) 0 leaves with
      | some hd, some ls => .ok (.expr hd ls)
      | _, _ => .diverge := by
  simp only [applyOther, hd]
  rw [if_neg (by simp [Expr.headName, hL, hR])]
  rw [if_neg (by simp [Expr.isMachineReal]), if_neg (by simp [Expr.isNumber])]
  rcases hnv with hnv | hnv
  · rw [if_pos hnv]
    rw [if_neg (by simp [Expr.isAtom])]
  · by_cases hnm : (Expr.expr h leaves).lookupName = ""
    · rw [if_pos hnm, if_neg (by simp [Expr.isAtom])]
    · rw [if_neg hnm, hnv, if_neg (by simp [Expr.isAtom])]

/-- Claim C1 (amended): for an expression that reaches the override lookup
(resolvable precision, head neither `List` nor `Rule`, not a raw number,
non-empty lookup name) whose `NValues` lookup yields a replacement: a
replacement not syntactically identical to the request `N[expr, prec]` is
itself numericized at the same precision via re-evaluating
`N[replacement, prec]` and that result is returned; a replacement
syntactically identical to the request is returned as-is — the request
itself, left unevaluated — which terminates the override path (but is not
the same as treating it as "no override found"; see the counterexample). -/
theorem c1_nvalues_override_path (env : Env) (precArg e result : Expr)
    (d : Option ℚ)
    (hd : resolveD env precArg = some d)
    (hL : e.headName ≠ "System`List") (hR : e.headName ≠ "System`Rule")
    (hmr : e.isMachineReal = false) (hnum : e.isNumber = false)
    (hnm : e.lookupName ≠ "")
    (hnv : env.nvalues e.lookupName (nreq e precArg) = some result) :
    (∀ r, result ≠ nreq e precArg → env.evalo (nreq result precArg) = some r →
        applyOther env precArg e = .ok r)
  ∧ (result = nreq e precArg →
        applyOther env precArg e = .ok (nreq e precArg)) := by
  have H := applyOther_override env precArg e result d hd hL hR hmr hnum hnm hnv
  constructor
  · intro r hne hev
    rw [H, if_neg hne, hev]
  · intro heq
    rw [H, if_pos heq, heq]

/-- A store where the symbol `b` has the override `N[b, 20] :> 7`, with the
identity rewriting engine. -/
def envC1w : Env :=
  ⟨fun x => some x, fun _ => [],
   fun nm req =>
     if nm = "Global`b" ∧ req = nreq (.symbol "Global`b") (.integer 20)
     then some (.integer 7) else none,
   fun _ => none⟩

theorem c1_nvalues_override_path_witness :
    (resolveD envC1w (.integer 20) = some (some 20)
      ∧ Expr.headName (.symbol "Global`b") ≠ "System`List"
      ∧ Expr.headName (.symbol "Global`b") ≠ "System`Rule"
      ∧ Expr.isMachineReal (.symbol "Global`b") = false
      ∧ Expr.isNumber (.symbol "Global`b") = false
      ∧ Expr.lookupName (.symbol "Global`b") ≠ ""
      ∧ envC1w.nvalues (Expr.lookupName (.symbol "Global`b"))
          (nreq (.symbol "Global`b") (.integer 20)) = some (.integer 7)
      ∧ Expr.integer 7 ≠ nreq (.symbol "Global`b") (.integer 20)
      ∧ envC1w.evalo (nreq (.integer 7) (.integer 20))
          = some (nreq (.integer 7) (.integer 20)))
  ∧ applyOther envC1w (.integer 20) (.symbol "Global`b")
      = .ok (nreq (.integer 7) (.integer 20)) := by
  refine ⟨by decide, ?_⟩
  exact (c1_nvalues_override_path envC1w (.integer 20) (.symbol "Global`b")
    (.integer 7) (some 20) (by decide) (by decide) (by decide) (by decide)
    (by decide) (by decide) (by decide)).1
    (nreq (.integer 7) (.integer 20)) (by decide) (by decide)

/-- A store where the symbol `a` has the self-referential override
`N[a, 20] :> N[a, 20]` (the replacement is syntactically identical to the
request), with the identity rewriting engine. -/
def envC1id : Env :=
  ⟨fun x => some x, fun _ => [],
   fun nm req =>
     if nm = "Global`a" ∧ req = nreq (.symbol "Global`a") (.integer 20)
     then some (nreq (.symbol "Global`a") (.integer 20)) else none,
   fun _ => none⟩

/-- The same store with the override removed. -/
def envC1none : Env :=
  ⟨fun x => some x, fun _ => [], fun _ _ => none, fun _ => none⟩

/-- Claim C1 counterexample: a replacement syntactically identical to the
request is NOT treated as if no override was found.  With the override
`N[a, 20] :> N[a, 20]`, `N.apply_other` returns the request `N[a, 20]`
itself, while with no override found it returns the atom `a` unchanged —
two different results. -/
theorem c1_counterexample :
    envC1id.nvalues (Expr.lookupName (.symbol "Global`a"))
        (nreq (.symbol "Global`a") (.integer 20))
      = some (nreq (.symbol "Global`a") (.integer 20))
  ∧ applyOther envC1id (.integer 20) (.symbol "Global`a")
      = .ok (nreq (.symbol "Global`a") (.integer 20))
  ∧ applyOther envC1none (.integer 20) (.symbol "Global`a")
      = .ok (.symbol "Global`a")
  ∧ nreq (.symbol "Global`a") (.integer 20) ≠ .symbol "Global`a" := by decide

/-- Claim C7: a precision argument that is not the `MachinePrecision`
symbol and does not resolve to a machine-sized real number makes
`N.apply_other` report the `precbd` message and return no result, so the
original `N[expr, prec]` call is left unevaluated and `expr` is unchanged —
for every expression `expr`. -/
theorem c7_bad_precision (env : Env) (precArg e : Expr)
    (h1 : precArg.getName ≠ "System`MachinePrecision")
    (h2 : getFloatValue env precArg = none) :
    applyOther env precArg e = NRes.precbd := by
  have hr : resolveD env precArg = none := by
    rw [resolveD, if_neg h1, h2]
  cases e <;> simp [applyOther, hr]

theorem c7_bad_precision_witness :
    (Expr.getName (.symbol "Global`p") ≠ "System`MachinePrecision"
      ∧ getFloatValue trivEnv (.symbol "Global`p") = none)
  ∧ applyOther trivEnv (.symbol "Global`p") (.integer 1) = NRes.precbd :=
  ⟨⟨by decide, by decide⟩,
   c7_bad_precision trivEnv (.symbol "Global`p") (.integer 1)
     (by decide) (by decide)⟩

/-- Claim C9: an algorithm name outside the supported set (`Adler32`,
`CRC32`, `MD5`, `SHA`, `SHA224`, `SHA256`, `SHA384`, `SHA512`) makes
`Hash.compute` return no result — the originating call is left unevaluated,
no digest is produced and no error is raised — for every expression (byte
stream) and every digest implementation; every supported name produces a
digest. -/
theorem c9_unknown_hash (impl : String → List ℕ → ℕ) (userHash : List ℕ)
    (hashtype : String) (h : hashtype ∉ supportedHashNames) :
    hashCompute impl userHash hashtype = none
  ∧ ∀ name ∈ supportedHashNames,
      ∃ v, hashCompute impl userHash name = some v := by
  constructor
  · rw [hashCompute, if_neg h]
  · intro name hn
    exact ⟨impl name userHash, by rw [hashCompute, if_pos hn]⟩

theorem c9_unknown_hash_witness :
    "xyzstr" ∉ supportedHashNames
  ∧ (hashCompute (fun _ _ => 0) [] "xyzstr" = none
      ∧ ∀ name ∈ supportedHashNames,
          ∃ v, hashCompute (fun _ _ => 0) [] name = some v) :=
  ⟨by decide, c9_unknown_hash (fun _ _ => 0) [] "xyzstr" (by decide)⟩

/-- Claim C5 (the code bug): the leaf rule of `chop` honours the tolerance
(`chop(5.0, 10) = 0` since `5` lies inside `(-10, 10)`, and a value whose
magnitude equals the tolerance exactly is retained), but the compound rule
does not chop the arguments "at the same tolerance delta" as the claim
states: the recursive calls drop the `delta` argument and use the default
`10^-10`, so `chop(List[5.0], 10)` returns `List[5.0]` where the claimed
behaviour (`chopSpec`) yields `List[0]`. -/
theorem c5_chop_delta_dropped :
    chop (.machineReal 5) 10 = .integer 0
  ∧ chop (.machineReal 10) 10 = .machineReal 10
  ∧ chop (.expr (.symbol "System`List") [.machineReal 5]) 10
      = .expr (.symbol "System`List") [.machineReal 5]
  ∧ chopSpec (.expr (.symbol "System`List") [.machineReal 5]) 10
      = .expr (.symbol "System`List") [.integer 0] := by decide

/-- Claim C6 counterexample: the machine real `0.0` is an inexact value of
magnitude exactly zero, yet `Precision` yields the `MachinePrecision`
sentinel for it (through the `z_?MachineNumberQ` rule, as the source's own
doctest `Precision[0.0] = MachinePrecision` records), not the *Zero*
result `0.`. -/
theorem c6_counterexample :
    isInexact (.machineReal 0) = true
  ∧ isZeroValue (.machineReal 0) = true
  ∧ precisionBuiltin (.machineReal 0) = .symbol "System`MachinePrecision"
  ∧ Expr.symbol "System`MachinePrecision" ≠ .machineReal 0 := by decide

/-- Claim C6 (amended): for every arbitrary-precision (non-machine) inexact
value whose magnitude is exactly zero, `Precision` yields the *Zero* result
`0.` regardless of how many digits `d` were nominally requested when the
value was constructed; the *Zero* result is distinct from the
`MachinePrecision` sentinel and from `Digits(n)` for every `n ≠ 0`. -/
theorem c6_zero_precision (v d : ℚ) (hv : v = 0) :
    precisionBuiltin (.precisionReal v d) = .machineReal 0
  ∧ Expr.machineReal 0 ≠ .symbol "System`MachinePrecision"
  ∧ ∀ n : ℚ, n ≠ 0 → Expr.machineReal 0 ≠ .machineReal n := by
  subst hv
  refine ⟨?_, by simp, ?_⟩
  · rw [precisionBuiltin, if_neg (by simp [machineNumberQ])]
    rw [if_neg (by simp [isInexact]), if_pos (by simp [isZeroValue])]
  · intro n hn h
    rw [Expr.machineReal.injEq] at h
    exact hn h.symm

theorem c6_zero_precision_witness :
    ((0 : ℚ) = 0)
  ∧ (precisionBuiltin (.precisionReal 0 30) = .machineReal 0
      ∧ Expr.machineReal 0 ≠ .symbol "System`MachinePrecision"
      ∧ ∀ n : ℚ, n ≠ 0 → Expr.machineReal 0 ≠ .machineReal n) :=
  ⟨rfl, c6_zero_precision 0 30 rfl⟩

/-- A closed-world definitions store with no attributes and the single
self-referential override `N[a, 20] :> N[a, 20]`. -/
def cdefsC3 : CDefs :=
  ⟨fun _ => [],
   fun nm req =>
     if nm = "Global`a" ∧ req = nreq (.symbol "Global`a") (.integer 20)
     then some (nreq (.symbol "Global`a") (.integer 20)) else none⟩

/-- Claim C3 counterexample: numericization is not idempotent on general
expressions.  In the closed world `cdefsC3`, numericizing the symbol `a`
at precision 20 yields the unevaluated request `N[a, 20]` (the override
termination rule), but numericizing that result again descends into the
compound `N[a, 20]` and converts its precision leaf, yielding
`N[N[a, 20], 20.]` — a different expression.  (Fuel 6 is ample: every
nested evaluation in this computation completes, as the `some` results
show.) -/
theorem c3_counterexample :
    numericizeClosed cdefsC3 6 (.integer 20) (.symbol "Global`a")
      = some (nreq (.symbol "Global`a") (.integer 20))
  ∧ numericizeClosed cdefsC3 6 (.integer 20)
        (nreq (.symbol "Global`a") (.integer 20))
      = some (.expr (.symbol "System`N")
          [nreq (.symbol "Global`a") (.integer 20), .precisionReal 20 20])
  ∧ Expr.expr (.symbol "System`N")
        [nreq (.symbol "Global`a") (.integer 20), .precisionReal 20 20]
      ≠ nreq (.symbol "Global`a") (.integer 20) := by decide

/-- Re-rounding a number at the same target precision changes nothing. -/
theorem numberRound_idem (d : Option ℚ) :
    ∀ x : Expr, numberRound d (numberRound d x) = numberRound d x
  | .integer n => by cases d <;> simp [numberRound]
  | .rational q => by cases d <;> simp [numberRound]
  | .machineReal v => by cases d <;> simp [numberRound]
  | .precisionReal v p => by cases d <;> simp [numberRound]
  | .complex re im => by
    simp only [numberRound]
    rw [numberRound_idem d re, numberRound_idem d im]
  | .symbol s => by simp [numberRound]
  | .str s => by simp [numberRound]
  | .expr h l => by simp [numberRound]

/-- Rounding keeps numbers numbers. -/
theorem numberRound_isNumber (d : Option ℚ) :
    ∀ x : Expr, x.isNumber = true → (numberRound d x).isNumber = true
  | .integer n, _ => by cases d <;> simp [numberRound, Expr.isNumber]
  | .rational q, _ => by cases d <;> simp [numberRound, Expr.isNumber]
  | .machineReal v, _ => by cases d <;> simp [numberRound, Expr.isNumber]
  | .precisionReal v p, _ => by cases d <;> simp [numberRound, Expr.isNumber]
  | .complex re im, _ => by simp [numberRound, Expr.isNumber]

/-- `N.apply_other` on a number with a resolvable precision: a machine real
is returned unchanged, any other number is rounded to the target
precision. -/
theorem applyOther_number (env : Env) (precArg x : Expr) (d : Option ℚ)
    (hd : resolveD env precArg = some d) (hx : x.isNumber = true) :
    applyOther env precArg x = .ok (if x.isMachineReal then x else numberRound d x) := by
  cases x with
  | symbol s => simp [Expr.isNumber] at hx
  | str s => simp [Expr.isNumber] at hx
  | expr h l => simp [Expr.isNumber] at hx
  | integer n =>
    simp [applyOther, hd, Expr.headName, Expr.isMachineReal, Expr.isNumber]
  | rational q =>
    simp [applyOther, hd, Expr.headName, Expr.isMachineReal, Expr.isNumber]
  | machineReal v =>
    simp [applyOther, hd, Expr.headName, Expr.isMachineReal, Expr.isNumber]
  | precisionReal v p =>
    simp [applyOther, hd, Expr.headName, Expr.isMachineReal, Expr.isNumber]
  | complex a b =>
    simp [applyOther, hd, Expr.headName, Expr.isMachineReal, Expr.isNumber]

/-- Claim C3 (amended): numericization is idempotent on numeric atoms — for
every number `x`, if `N.apply_other` converts `x` to `y` at a given
precision then converting `y` at the same precision returns `y` itself; in
particular a machine real input is returned unchanged at any requested
precision.  (Idempotence does not extend to arbitrary expressions; see the
counterexample.) -/
theorem c3_numericize_idempotent_on_numbers (env : Env) (precArg x y : Expr)
    (hx : x.isNumber = true) (h : applyOther env precArg x = .ok y) :
    applyOther env precArg y = .ok y := by
  rcases hr : resolveD env precArg with _ | d
  · rw [show applyOther env precArg x = NRes.precbd by
      cases x <;> simp [applyOther, hr]] at h
    cases h
  · rw [applyOther_number env precArg x d hr hx] at h
    have hy : y = if x.isMachineReal then x else numberRound d x := by
      cases h; rfl
    by_cases hmr : x.isMachineReal = true
    · rw [hy, if_pos hmr]
      rw [applyOther_number env precArg x d hr hx, if_pos hmr]
    · rw [hy, if_neg hmr]
      have hyn : (numberRound d x).isNumber = true := numberRound_isNumber d x hx
      rw [applyOther_number env precArg (numberRound d x) d hr hyn]
      by_cases hmr2 : (numberRound d x).isMachineReal = true
      · rw [if_pos hmr2]
      · rw [if_neg hmr2, numberRound_idem]

theorem c3_numericize_idempotent_on_numbers_witness :
    (Expr.isNumber (.integer 3) = true
      ∧ applyOther trivEnv (.integer 20) (.integer 3)
          = .ok (.precisionReal 3 20))
  ∧ applyOther trivEnv (.integer 20) (.precisionReal 3 20)
      = .ok (.precisionReal 3 20) :=
  ⟨⟨by decide, by decide⟩,
   c3_numericize_idempotent_on_numbers trivEnv (.integer 20) (.integer 3)
     (.precisionReal 3 20) (by decide) (by decide)⟩

theorem sMulIntK_zero (k : SVal) : sMulIntK 0 k = .sInt 0 := by
  cases k <;> simp [sMulIntK]

theorem sMulIntK_sInt (n m : ℤ) (h : n ≠ 0) :
    sMulIntK n (.sInt m) = .sInt (n * m) := by simp [sMulIntK, h]

theorem sMulIntK_sRat (n : ℤ) (q : ℚ) (h : n ≠ 0) :
    sMulIntK n (.sRat q) =
      if ((n : ℚ) * q).den = 1 then .sInt ((n : ℚ) * q).num
      else .sRat ((n : ℚ) * q) := by simp [sMulIntK, h]

theorem sMulIntK_sFloat (n : ℤ) (q : ℚ) (h : n ≠ 0) :
    sMulIntK n (.sFloat q) = .sFloat ((n : ℚ) * q) := by simp [sMulIntK, h]

/-- Claim C4 counterexample: exactness is not propagated from `x`.  The
source's own doctest `Round[2.6, 1/3] = 8/3`: the inexact float `2.6`
(value `13/5`) rounded to the nearest multiple of the exact `1/3` yields
the EXACT rational `8/3` — the rounded quotient is the exact
`sympy.Integer` 8, and an exact-integer times an exact rational is exact —
contradicting "if either x or k is inexact the result is inexact". -/
theorem c4_counterexample :
    SVal.isExact (.sFloat (13/5)) = false
  ∧ roundMultiple (.sFloat (13/5)) (.sRat (1/3)) = .sRat (8/3)
  ∧ SVal.isExact (roundMultiple (.sFloat (13/5)) (.sRat (1/3))) = true := by
  have hq : SVal.val (.sFloat (13/5)) / SVal.val (.sRat (1/3)) = 39/5 := by
    simp only [SVal.val]
    norm_num
  have hrh : roundHalfAway (39/5) = 8 := by
    rw [roundHalfAway, if_pos (by norm_num)]
    norm_num
  have hden : (((8:ℤ):ℚ) * (1/3)).den ≠ 1 := by norm_num [Rat.den]
  have hmul : roundMultiple (.sFloat (13/5)) (.sRat (1/3)) = .sRat (8/3) := by
    rw [roundMultiple, hq, hrh, sMulIntK_sRat 8 (1/3) (by norm_num), if_neg hden]
    norm_num
  exact ⟨rfl, hmul, by rw [hmul]; rfl⟩

/-- Claim C4 (amended): for every real numeric `x` and nonzero real numeric
`k`, `round(x, k)` is `round(x/k) * k` where `round(x/k)` is the exact
integer obtained by rounding the quotient half-away-from-zero; the result
is exact if and only if `k` is exact or the rounded quotient is zero (the
rounded quotient is always an exact `sympy.Integer`, so the exactness of
`x` plays no role; a zero quotient collapses to the exact integer 0 even
for inexact `k`). -/
theorem c4_round_exactness (x k : SVal) (hk : k.val ≠ 0) :
    (roundMultiple x k).val
        = (roundHalfAway (x.val / k.val) : ℚ) * k.val
  ∧ (roundMultiple x k).isExact
        = (k.isExact || decide (roundHalfAway (x.val / k.val) = 0)) := by
  rw [roundMultiple]
  by_cases h0 : roundHalfAway (x.val / k.val) = 0
  · rw [h0, sMulIntK_zero]
    simp [SVal.val, SVal.isExact]
  · cases k with
    | sInt m =>
      rw [sMulIntK_sInt _ _ h0]
      constructor
      · simp only [SVal.val]
        push_cast
        ring
      · simp [SVal.isExact]
    | sRat q =>
      rw [sMulIntK_sRat _ _ h0]
      by_cases hden :
          ((roundHalfAway (x.val / (SVal.sRat q).val) : ℚ) * q).den = 1
      · rw [if_pos hden]
        constructor
        · simp only [SVal.val]
          have hh := Rat.num_div_den
            ((roundHalfAway (x.val / (SVal.sRat q).val) : ℚ) * q)
          rw [hden, Nat.cast_one, div_one] at hh
          simp only [SVal.val] at hh
          exact hh
        · simp [SVal.isExact]
      · rw [if_neg hden]
        exact ⟨rfl, by simp [SVal.isExact]⟩
    | sFloat q =>
      rw [sMulIntK_sFloat _ _ h0]
      exact ⟨rfl, by simp [SVal.isExact, h0]⟩

theorem c4_round_exactness_witness :
    SVal.val (.sRat (1/3)) ≠ 0
  ∧ ((roundMultiple (.sFloat (13/5)) (.sRat (1/3))).val
        = (roundHalfAway (SVal.val (.sFloat (13/5))
            / SVal.val (.sRat (1/3))) : ℚ) * SVal.val (.sRat (1/3))
      ∧ (roundMultiple (.sFloat (13/5)) (.sRat (1/3))).isExact
          = (SVal.isExact (.sRat (1/3))
              || decide (roundHalfAway (SVal.val (.sFloat (13/5))
                  / SVal.val (.sRat (1/3))) = 0))) :=
  ⟨by norm_num [SVal.val],
   c4_round_exactness (.sFloat (13/5)) (.sRat (1/3)) (by norm_num [SVal.val])⟩

theorem mapIdx_congr_lt : ∀ (ls : List Expr) (f g : ℕ → Expr → Expr),
    (∀ j, j < ls.length → ∀ l, f j l = g j l) → ls.mapIdx f = ls.mapIdx g
  | [], _, _, _ => rfl
  | x :: xs, f, g, h => by
    simp only [List.mapIdx_cons]
    rw [h 0 (by simp) x,
      mapIdx_congr_lt xs (fun i => f (i + 1)) (fun i => g (i + 1))
        (fun j hj l => h (j + 1) (by simpa using hj) l)]

theorem mapIdx_id : ∀ ls : List Expr, ls.mapIdx (fun _ l => l) = ls
  | [] => rfl
  | x :: xs => by
    simp only [List.mapIdx_cons]
    rw [mapIdx_id xs]

theorem mapIdx_constF (F : Expr → Expr) :
    ∀ ls : List Expr, ls.mapIdx (fun _ l => F l) = ls.map F
  | [] => rfl
  | x :: xs => by
    simp only [List.mapIdx_cons, List.map_cons]
    rw [mapIdx_constF F xs]

/-- When every external evaluation returns (oracle `E`), the leaf loop
converts exactly the positions selected by `eval_range`, leaving the others
structurally untouched. -/
theorem convLeaves_eval (env : Env) (p : Expr) (E : Expr → Expr)
    (hE : ∀ e, env.evalo e = some (E e)) (R : List ℕ) :
    ∀ (i : ℕ) (ls : List Expr),
      convLeaves env p R i ls =
        some (ls.mapIdx fun j l => if (i + j) ∈ R then E (nreq l p) else l)
  | _, [] => by simp [convLeaves]
  | i, l :: ls => by
    rw [convLeaves, convLeaves_eval env p E hE R (i + 1) ls]
    by_cases h : i ∈ R
    · rw [if_pos h, hE]
      simp only [List.mapIdx_cons, Nat.add_zero, if_pos h, Option.some.injEq,
        List.cons.injEq, true_and]
      exact mapIdx_congr_lt ls _ _ (fun j hj l' => by
        rw [show i + 1 + j = i + (j + 1) by omega])
    · rw [if_neg h]
      simp only [List.mapIdx_cons, Nat.add_zero, if_neg h, Option.some.injEq,
        List.cons.injEq, true_and]
      exact mapIdx_congr_lt ls _ _ (fun j hj l' => by
        rw [show i + 1 + j = i + (j + 1) by omega])

/-- `N.apply_other` on the compound branch with a total oracle: the result
is the rebuilt expression with the separately numericized head and the
`eval_range`-selected leaves converted. -/
theorem applyOther_compound_eval (env : Env) (precArg : Expr) (E : Expr → Expr)
    (hE : ∀ e, env.evalo e = some (E e))
    (h : Expr) (leaves : List Expr) (d : Option ℚ)
    (hd : resolveD env precArg = some d)
    (hL : h.getName ≠ "System`List") (hR : h.getName ≠ "System`Rule")
    (hnv : (Expr.expr h leaves).lookupName = "" ∨
        env.nvalues (Expr.expr h leaves).lookupName
          (nreq (.expr h leaves) precArg) = none) :
    applyOther env precArg (.expr h leaves) =
      .ok (.expr (E (nreq h precArg))
        (leaves.mapIdx fun j l =>
          if j ∈ evalRangeFor (headAttributes env h) leaves.length
          then E (nreq l precArg) else l)) := by
  rw [applyOther_compound env precArg h leaves d hd hL hR hnv, hE,
    convLeaves_eval env precArg E hE _ 0 leaves]
  exact congrArg _ (congrArg _ (mapIdx_congr_lt leaves _ _ (fun j hj l => by
    rw [Nat.zero_add])))

/-- Claim C2: for a compound expression whose head is not `List` or `Rule`
and has no applicable `NValues` override, at a resolvable precision and
with every external evaluation returning (oracle `E`): a head carrying
`NHoldAll` has no argument position numericized; `NHoldFirst` (without
`NHoldAll`) numericizes every position except position 0; `NHoldRest`
(without the former two) numericizes only position 0 (vacuously when there
are no arguments); with none of the three attributes every position is
numericized.  Non-selected positions are left structurally untouched, and
in every case the head itself is separately numericized as the re-evaluated
`N[head, prec]` before being reattached. -/
theorem c2_attribute_suppression (env : Env) (precArg : Expr) (E : Expr → Expr)
    (hE : ∀ e, env.evalo e = some (E e))
    (h : Expr) (leaves : List Expr) (d : Option ℚ)
    (hd : resolveD env precArg = some d)
    (hL : h.getName ≠ "System`List") (hR : h.getName ≠ "System`Rule")
    (hnv : (Expr.expr h leaves).lookupName = "" ∨
        env.nvalues (Expr.expr h leaves).lookupName
          (nreq (.expr h leaves) precArg) = none) :
    ("System`NHoldAll" ∈ headAttributes env h →
        applyOther env precArg (.expr h leaves)
          = .ok (.expr (E (nreq h precArg)) leaves))
  ∧ ("System`NHoldAll" ∉ headAttributes env h →
      "System`NHoldFirst" ∈ headAttributes env h →
        applyOther env precArg (.expr h leaves)
          = .ok (.expr (E (nreq h precArg))
              (leaves.mapIdx fun j l =>
                if j = 0 then l else E (nreq l precArg))))
  ∧ ("System`NHoldAll" ∉ headAttributes env h →
      "System`NHoldFirst" ∉ headAttributes env h →
      "System`NHoldRest" ∈ headAttributes env h →
        applyOther env precArg (.expr h leaves)
          = .ok (.expr (E (nreq h precArg))
              (leaves.mapIdx fun j l =>
                if j = 0 then E (nreq l precArg) else l)))
  ∧ ("System`NHoldAll" ∉ headAttributes env h →
      "System`NHoldFirst" ∉ headAttributes env h →
      "System`NHoldRest" ∉ headAttributes env h →
        applyOther env precArg (.expr h leaves)
          = .ok (.expr (E (nreq h precArg))
              (leaves.map fun l => E (nreq l precArg)))) := by
  have base := applyOther_compound_eval env precArg E hE h leaves d hd hL hR hnv
  refine ⟨?_, ?_, ?_, ?_⟩
  · intro hAll
    have hsel : (leaves.mapIdx fun j l =>
        if j ∈ evalRangeFor (headAttributes env h) leaves.length
        then E (nreq l precArg) else l) = leaves := by
      rw [evalRangeFor, if_pos hAll]
      rw [mapIdx_congr_lt leaves _ (fun _ l => l) (fun j hj l => by simp)]
      exact mapIdx_id leaves
    rw [base, hsel]
  · intro hAll hFirst
    have hsel : (leaves.mapIdx fun j l =>
        if j ∈ evalRangeFor (headAttributes env h) leaves.length
        then E (nreq l precArg) else l)
        = leaves.mapIdx fun j l => if j = 0 then l else E (nreq l precArg) := by
      rw [evalRangeFor, if_neg hAll, if_pos hFirst]
      apply mapIdx_congr_lt
      intro j hj l
      have hmem : (j ∈ List.range' 1 (leaves.length - 1)) ↔ ¬ j = 0 := by
        rw [List.mem_range']
        constructor
        · rintro ⟨i, hi, rfl⟩
          omega
        · intro hne
          exact ⟨j - 1, by omega, by omega⟩
      rw [if_congr hmem rfl rfl, ite_not]
    rw [base, hsel]
  · intro hAll hFirst hRest
    have hsel : (leaves.mapIdx fun j l =>
        if j ∈ evalRangeFor (headAttributes env h) leaves.length
        then E (nreq l precArg) else l)
        = leaves.mapIdx fun j l => if j = 0 then E (nreq l precArg) else l := by
      rw [evalRangeFor, if_neg hAll, if_neg hFirst, if_pos hRest]
      apply mapIdx_congr_lt
      intro j hj l
      have hmem : (j ∈ if 0 < leaves.length then [0] else ([] : List ℕ)) ↔ j = 0 := by
        rw [if_pos (by omega)]
        simp
      rw [if_congr hmem rfl rfl]
    rw [base, hsel]
  · intro hAll hFirst hRest
    have hsel : (leaves.mapIdx fun j l =>
        if j ∈ evalRangeFor (headAttributes env h) leaves.length
        then E (nreq l precArg) else l)
        = leaves.map fun l => E (nreq l precArg) := by
      rw [evalRangeFor, if_neg hAll, if_neg hFirst, if_neg hRest]
      rw [mapIdx_congr_lt leaves _ (fun _ l => E (nreq l precArg))
        (fun j hj l => by rw [if_pos (List.mem_range.mpr hj)])]
      exact mapIdx_constF _ leaves
    rw [base, hsel]

/-- A store where the symbol `f` carries the `NHoldAll` attribute, with the
identity rewriting engine. -/
def envC2 : Env :=
  ⟨fun x => some x,
   fun nm => if nm = "Global`f" then ["System`NHoldAll"] else [],
   fun _ _ => none, fun _ => none⟩

theorem c2_attribute_suppression_witness :
    ((∀ e, envC2.evalo e = some (id e))
      ∧ resolveD envC2 (.integer 20) = some (some 20)
      ∧ Expr.getName (.symbol "Global`f") ≠ "System`List"
      ∧ Expr.getName (.symbol "Global`f") ≠ "System`Rule"
      ∧ envC2.nvalues
          (Expr.lookupName
            (.expr (.symbol "Global`f") [.symbol "Global`x", .symbol "Global`y"]))
          (nreq (.expr (.symbol "Global`f") [.symbol "Global`x", .symbol "Global`y"])
            (.integer 20)) = none
      ∧ "System`NHoldAll" ∈ headAttributes envC2 (.symbol "Global`f"))
  ∧ applyOther envC2 (.integer 20)
        (.expr (.symbol "Global`f") [.symbol "Global`x", .symbol "Global`y"])
      = .ok (.expr (id (nreq (.symbol "Global`f") (.integer 20)))
          [.symbol "Global`x", .symbol "Global`y"]) :=
  ⟨⟨fun _ => rfl, by decide, by decide, by decide, by decide, by decide⟩,
   (c2_attribute_suppression envC2 (.integer 20) id (fun _ => rfl)
      (.symbol "Global`f") [.symbol "Global`x", .symbol "Global`y"] (some 20)
      (by decide) (by decide) (by decide) (Or.inr (by decide))).1 (by decide)⟩

theorem isNumericList_iff (attrs : String → List String)
    (numericSym : String → Bool) :
    ∀ ls : List Expr, isNumericList attrs numericSym ls = true ↔
      ∀ l ∈ ls, isNumericExpr attrs numericSym l = true
  | [] => by simp [isNumericList]
  | l :: ls => by
    simp [isNumericList, Bool.and_eq_true, isNumericList_iff attrs numericSym ls]

/-- Claim C8: `NumericQ`'s test classifies a compound expression as numeric
if and only if its head carries the `NumericFunction` attribute and every
argument is recursively numeric; a number atom is numeric, a string is not,
a symbol without the numeric classification is not; in particular
`f[1, 2]` is not numeric for a symbol `f` without the attribute even though
`1` and `2` are numeric. -/
theorem c8_numericq (attrs : String → List String) (numericSym : String → Bool) :
    (∀ h leaves, isNumericExpr attrs numericSym (.expr h leaves) = true ↔
        ("System`NumericFunction" ∈ attrs h.getName
          ∧ ∀ l ∈ leaves, isNumericExpr attrs numericSym l = true))
  ∧ (∀ n : ℤ, isNumericExpr attrs numericSym (.integer n) = true)
  ∧ (∀ q : ℚ, isNumericExpr attrs numericSym (.rational q) = true)
  ∧ (∀ v : ℚ, isNumericExpr attrs numericSym (.machineReal v) = true)
  ∧ (∀ v p : ℚ, isNumericExpr attrs numericSym (.precisionReal v p) = true)
  ∧ (∀ s, numericSym s = false →
        isNumericExpr attrs numericSym (.symbol s) = false)
  ∧ (∀ s, isNumericExpr attrs numericSym (.str s) = false)
  ∧ (∀ f, "System`NumericFunction" ∉ attrs f →
        isNumericExpr attrs numericSym
          (.expr (.symbol f) [.integer 1, .integer 2]) = false) := by
  refine ⟨?_, ?_, ?_, ?_, ?_, ?_, ?_, ?_⟩
  · intro h leaves
    simp [isNumericExpr, Bool.and_eq_true, isNumericList_iff]
  · intro n; rfl
  · intro q; rfl
  · intro v; rfl
  · intro v p; rfl
  · intro s hs; simp [isNumericExpr, hs]
  · intro s; rfl
  · intro f hf
    simp [isNumericExpr, Expr.getName, hf]

theorem c8_numericq_witness :
    "System`NumericFunction" ∉ (fun _ => ([] : List String)) "Global`f"
  ∧ isNumericExpr (fun _ => []) (fun _ => false)
      (.expr (.symbol "Global`f") [.integer 1, .integer 2]) = false :=
  ⟨by decide,
   (c8_numericq (fun _ => []) (fun _ => false)).2.2.2.2.2.2.2 "Global`f"
     (by decide)⟩

theorem ofDigits_replicate_zero (b : ℕ) :
    ∀ k : ℕ, Nat.ofDigits b (List.replicate k 0) = 0
  | 0 => rfl
  | k + 1 => by
    simp [List.replicate_succ, Nat.ofDigits_cons, ofDigits_replicate_zero b k]

/-- Every entry of the digit list is a base-`b` digit. -/
theorem conv_digit_lt (n : ℤ) (b : ℕ) (hb : 1 < b) :
    ∀ d ∈ convert_int_to_digit_list n b, d < b := by
  intro d hd
  rw [convert_int_to_digit_list] at hd
  by_cases h0 : n = 0
  · rw [if_pos h0] at hd
    simp at hd
    omega
  · rw [if_neg h0, List.mem_reverse] at hd
    exact Nat.digits_lt_base hb hd

/-- The digit list (most significant first) re-evaluates to `|n|`. -/
theorem conv_value (n : ℤ) (b : ℕ) :
    Nat.ofDigits b (convert_int_to_digit_list n b).reverse = n.natAbs := by
  rw [convert_int_to_digit_list]
  by_cases h0 : n = 0
  · rw [if_pos h0, h0]
    simp [Nat.ofDigits_cons]
  · rw [if_neg h0, List.reverse_reverse, Nat.ofDigits_digits]

/-- `|n|` is bounded by the base raised to the digit count. -/
theorem conv_lt_pow (n : ℤ) (b : ℕ) (hb : 1 < b) :
    n.natAbs < b ^ (convert_int_to_digit_list n b).length := by
  rw [convert_int_to_digit_list]
  by_cases h0 : n = 0
  · rw [if_pos h0, h0]
    simp
    omega
  · rw [if_neg h0, List.length_reverse]
    exact Nat.lt_base_pow_length_digits hb

/-- The digit list discards the sign of `n`. -/
theorem conv_neg (n : ℤ) (b : ℕ) :
    convert_int_to_digit_list (-n) b = convert_int_to_digit_list n b := by
  rw [convert_int_to_digit_list, convert_int_to_digit_list, Int.natAbs_neg]
  simp [neg_eq_zero]

/-- The truncate-or-pad step of `IntegerDigits.apply`: whatever base-`b`
digit list for `m` it is given, it returns exactly `L` base-`b` digits whose
value is `m` modulo `b ^ L` (the rightmost `L` digits are kept when
truncating; left-padding with zeroes preserves the value). -/
theorem truncate_pad_spec (b L : ℕ) (hb : 1 < b) (m : ℕ) (digits : List ℕ)
    (hdl : ∀ d ∈ digits, d < b)
    (hval : Nat.ofDigits b digits.reverse = m)
    (hlt : m < b ^ digits.length) :
    (if L ≤ digits.length then digits.drop (digits.length - L)
     else List.replicate (L - digits.length) 0 ++ digits).length = L
  ∧ (∀ d ∈ (if L ≤ digits.length then digits.drop (digits.length - L)
       else List.replicate (L - digits.length) 0 ++ digits), d < b)
  ∧ Nat.ofDigits b
      (if L ≤ digits.length then digits.drop (digits.length - L)
       else List.replicate (L - digits.length) 0 ++ digits).reverse
      = m % b ^ L := by
  by_cases hlen : L ≤ digits.length
  · rw [if_pos hlen]
    refine ⟨by rw [List.length_drop]; omega, ?_, ?_⟩
    · intro d hd
      exact hdl d (List.drop_subset _ _ hd)
    · have hsplit := List.take_append_drop (digits.length - L) digits
      have hvalue := hval
      rw [← hsplit, List.reverse_append, Nat.ofDigits_append] at hvalue
      have hdroplen : (digits.drop (digits.length - L)).length = L := by
        rw [List.length_drop]
        omega
      have hlt2 : Nat.ofDigits b (digits.drop (digits.length - L)).reverse
          < b ^ L := by
        have := Nat.ofDigits_lt_base_pow_length (b := b)
          (l := (digits.drop (digits.length - L)).reverse) hb
          (fun x hx => hdl x (List.drop_subset _ _ (List.mem_reverse.mp hx)))
        rwa [List.length_reverse, hdroplen] at this
      rw [List.length_reverse, hdroplen] at hvalue
      rw [← hvalue, Nat.add_mul_mod_self_left, Nat.mod_eq_of_lt hlt2]
  · rw [if_neg hlen]
    refine ⟨by rw [List.length_append, List.length_replicate]; omega, ?_, ?_⟩
    · intro d hd
      rcases List.mem_append.mp hd with hd | hd
      · have := List.eq_of_mem_replicate hd
        omega
      · exact hdl d hd
    · rw [List.reverse_append, List.reverse_replicate, Nat.ofDigits_append,
        ofDigits_replicate_zero, hval, Nat.mul_zero, Nat.add_zero]
      have hlt2 : m < b ^ L :=
        lt_of_lt_of_le hlt (Nat.pow_le_pow_right (by omega) (by omega))
      rw [Nat.mod_eq_of_lt hlt2]

/-- Claim C10: for every integer `n`, integer base `b > 1` and requested
length `L`, `IntegerDigits[n, b, L]` returns a list of exactly `L` base-`b`
digits whose value (most significant first) is `|n| mod b^L` — so when `n`
has more than `L` digits the leftmost are dropped and the rightmost `L`
kept, when it has fewer the list is left-padded with zeroes, and `L = 0`
yields the empty list; the sign of `n` is discarded. -/
theorem c10_integer_digits (n base : ℤ) (L : ℕ) (hb : 1 < base) :
    ∃ ds : List ℕ,
      integerDigits n base (some L) = some ds
      ∧ ds.length = L
      ∧ (∀ d ∈ ds, (d : ℤ) < base)
      ∧ Nat.ofDigits base.toNat ds.reverse = n.natAbs % base.toNat ^ L
      ∧ integerDigits (-n) base (some L) = some ds
      ∧ (L = 0 → ds = []) := by
  have hb2 : 1 < base.toNat := by omega
  have hneg : integerDigits (-n) base (some L) = integerDigits n base (some L) := by
    rw [integerDigits, integerDigits, conv_neg]
  rcases Nat.eq_zero_or_pos L with hL0 | hLpos
  · subst hL0
    refine ⟨[], ?_, rfl, by simp, by simp [Nat.mod_one], ?_, fun _ => rfl⟩
    · rw [integerDigits, if_neg (not_not_intro hb), if_pos rfl]
    · rw [hneg, integerDigits, if_neg (not_not_intro hb), if_pos rfl]
  · have hL0 : ¬ (some L = some 0) := by simp; omega
    have hmain : integerDigits n base (some L) =
        some (if L ≤ (convert_int_to_digit_list n base.toNat).length
              then (convert_int_to_digit_list n base.toNat).drop
                ((convert_int_to_digit_list n base.toNat).length - L)
              else List.replicate
                (L - (convert_int_to_digit_list n base.toNat).length) 0
                ++ convert_int_to_digit_list n base.toNat) := by
      rw [integerDigits, if_neg (not_not_intro hb), if_neg hL0]
    obtain ⟨hlen, hbound, hvalue⟩ := truncate_pad_spec base.toNat L hb2 n.natAbs
      (convert_int_to_digit_list n base.toNat)
      (conv_digit_lt n base.toNat hb2) (conv_value n base.toNat)
      (conv_lt_pow n base.toNat hb2)
    refine ⟨_, hmain, hlen, ?_, hvalue, by rw [hneg, hmain],
      fun h0 => absurd h0 (by omega)⟩
    intro d hd
    have := hbound d hd
    omega

theorem c10_integer_digits_witness :
    (1 : ℤ) < 10
  ∧ ∃ ds : List ℕ,
      integerDigits (-7) 10 (some 3) = some ds
      ∧ ds.length = 3
      ∧ (∀ d ∈ ds, (d : ℤ) < 10)
      ∧ Nat.ofDigits (10:ℤ).toNat ds.reverse = (-7 : ℤ).natAbs % (10:ℤ).toNat ^ 3
      ∧ integerDigits (-(-7)) 10 (some 3) = some ds
      ∧ (3 = 0 → ds = []) :=
  ⟨by norm_num, c10_integer_digits (-7) 10 3 (by norm_num)⟩

end Mathics
